import Mathlib

/-!
Shallow embedding of the Tritone TPU golden reference model
(tools/tpu/ternary_matmul.py, benchmark_golden.py, generate_test_vectors.py,
tnn_layer_model.py) together with proofs about the embedded operations.

Conventions used throughout:
- Python integers are modelled as `ℤ`; Python `%` / `//` on integers agree
  with Lean `Int.emod` / `Int.ediv` (the `%` / `/` notation) for the positive
  divisors that occur here.
- NumPy integer matrices are modelled as total functions `ℕ → ℕ → ℤ` with the
  relevant dimensions passed explicitly; every array access performed by the
  Python code stays inside those dimensions.
- NumPy float arrays are modelled as `ℕ → ℕ → ℚ`; float arithmetic is modelled
  as exact rational arithmetic, and the transcendental evaluations
  (`math.exp`, `math.log`, `1/math.sqrt`) are abstracted as function
  parameters, since only the integer edge policies around them are proved.
- Python `int(...)` truncation toward zero is `ratTrunc`.
- A Python `raise` is modelled by `Option`: `none` is an error.
-/

/-- Truncation toward zero of a rational number, the behaviour of Python
`int(...)` applied to a float. -/
def ratTrunc (q : ℚ) : ℤ :=
  if q < 0 then ⌈q⌉ else ⌊q⌋

/-- Wrap-around of a mathematical integer into the signed 64-bit range,
the behaviour of NumPy int64 accumulation. -/
def wrap64 (x : ℤ) : ℤ :=
  (x + 2 ^ 63) % 2 ^ 64 - 2 ^ 63

/-- View a list-of-lists literal as a matrix valued function (missing entries
read as 0; concrete inputs below never read outside the literal). -/
def matOfLists (x : List (List ℤ)) : ℕ → ℕ → ℤ :=
  fun i j => (x.getD i []).getD j 0

/-- View a triple-nested list literal as a rank-3 tensor valued function. -/
def tensorOfLists (x : List (List (List ℤ))) : ℕ → ℕ → ℕ → ℤ :=
  fun c y xx => ((x.getD c []).getD y []).getD xx 0

namespace GenerateTestVectors

/-- Embedding of `int_to_balanced_ternary(val, num_trits)` from
tools/tpu/generate_test_vectors.py: `num_trits` iterations of taking the
remainder mod 3 (digit 0 for remainder 0, digit 1 for remainder 1, digit -1
with a carry `temp += 1` for remainder 2) followed by floor division by 3.
The digits are returned least significant first.  The Python function has no
range check: it always returns exactly `num_trits` digits. -/
def int_to_balanced_ternary (val : ℤ) : ℕ → List ℤ
  | 0 => []
  | Nat.succ n =>
      (if val % 3 = 0 then (0 : ℤ) else if val % 3 = 1 then 1 else -1) ::
        int_to_balanced_ternary (if val % 3 = 2 then (val + 1) / 3 else val / 3) n

/-- Embedding of `balanced_ternary_to_int(trits)` from
tools/tpu/generate_test_vectors.py: the loop keeps a running result and the
current power of three, adding `trit * power` for each digit. -/
def balanced_ternary_to_int (trits : List ℤ) : ℤ :=
  (trits.foldl (fun rp t => (rp.1 + t * rp.2, rp.2 * 3)) ((0 : ℤ), (1 : ℤ))).1

end GenerateTestVectors

/-- Little-endian base-3 (Horner) value of a digit list; closed form of the
`balanced_ternary_to_int` accumulator loop. -/
def btHorner : List ℤ → ℤ
  | [] => 0
  | d :: ds => d + 3 * btHorner ds

lemma balanced_ternary_foldl (l : List ℤ) : ∀ r p : ℤ,
    l.foldl (fun rp t => (rp.1 + t * rp.2, rp.2 * 3)) (r, p) =
      (r + p * btHorner l, p * 3 ^ l.length) := by
  induction l with
  | nil => intro r p; simp [btHorner]
  | cons d ds ih =>
      intro r p
      rw [List.foldl_cons, ih]
      refine Prod.ext ?_ ?_
      · show r + d * p + p * 3 * btHorner ds = r + p * btHorner (d :: ds)
        rw [btHorner]; ring
      · show p * 3 * 3 ^ ds.length = p * 3 ^ (d :: ds).length
        rw [List.length_cons, pow_succ]; ring

lemma balanced_ternary_to_int_eq_btHorner (l : List ℤ) :
    GenerateTestVectors.balanced_ternary_to_int l = btHorner l := by
  rw [GenerateTestVectors.balanced_ternary_to_int, balanced_ternary_foldl]
  simp

lemma three_pow_odd (N : ℕ) : (3 : ℤ) ^ N % 2 = 1 := by
  have h : Odd ((3 : ℤ) ^ N) := Odd.pow ⟨1, by norm_num⟩
  obtain ⟨k, hk⟩ := h
  omega

lemma three_pow_pos (N : ℕ) : (0 : ℤ) < 3 ^ N := pow_pos (by norm_num) N

lemma btHorner_encode (N : ℕ) : ∀ v : ℤ,
    -(3 ^ N - 1) ≤ 2 * v → 2 * v ≤ 3 ^ N - 1 →
    btHorner (GenerateTestVectors.int_to_balanced_ternary v N) = v := by
  induction N with
  | zero =>
      intro v h1 h2
      rw [pow_zero] at h1 h2
      have hv : v = 0 := by omega
      simp [GenerateTestVectors.int_to_balanced_ternary, btHorner, hv]
  | succ N ih =>
      intro v h1 h2
      have hP := three_pow_pos N
      have hodd := three_pow_odd N
      have hs : (3 : ℤ) ^ (N + 1) = 3 * 3 ^ N := by rw [pow_succ]; ring
      rw [hs] at h1 h2
      have h3 : v % 3 = 0 ∨ v % 3 = 1 ∨ v % 3 = 2 := by omega
      rcases h3 with h | h | h
      · rw [GenerateTestVectors.int_to_balanced_ternary, if_pos h,
          if_neg (show ¬v % 3 = 2 by omega)]
        rw [btHorner, ih (v / 3) (by omega) (by omega)]
        omega
      · rw [GenerateTestVectors.int_to_balanced_ternary,
          if_neg (show ¬v % 3 = 0 by omega), if_pos h,
          if_neg (show ¬v % 3 = 2 by omega)]
        rw [btHorner, ih (v / 3) (by omega) (by omega)]
        omega
      · rw [GenerateTestVectors.int_to_balanced_ternary,
          if_neg (show ¬v % 3 = 0 by omega),
          if_neg (show ¬v % 3 = 1 by omega), if_pos h]
        rw [btHorner, ih ((v + 1) / 3) (by omega) (by omega)]
        omega

lemma encode_length (N : ℕ) : ∀ v : ℤ,
    (GenerateTestVectors.int_to_balanced_ternary v N).length = N := by
  induction N with
  | zero => intro v; rfl
  | succ N ih =>
      intro v
      rw [GenerateTestVectors.int_to_balanced_ternary, List.length_cons, ih]

lemma encode_digit_mem (N : ℕ) : ∀ v : ℤ,
    ∀ d ∈ GenerateTestVectors.int_to_balanced_ternary v N,
      d = -1 ∨ d = 0 ∨ d = 1 := by
  induction N with
  | zero => intro v d hd; simp [GenerateTestVectors.int_to_balanced_ternary] at hd
  | succ N ih =>
      intro v d hd
      rw [GenerateTestVectors.int_to_balanced_ternary, List.mem_cons] at hd
      rcases hd with hd | hd
      · subst hd; split_ifs <;> simp
      · exact ih _ d hd

lemma btHorner_bound : ∀ l : List ℤ,
    (∀ d ∈ l, d = -1 ∨ d = 0 ∨ d = 1) →
    -(3 ^ l.length - 1) ≤ 2 * btHorner l ∧ 2 * btHorner l ≤ 3 ^ l.length - 1 := by
  intro l
  induction l with
  | nil => intro _; simp [btHorner]
  | cons d ds ih =>
      intro h
      have hds := ih (fun x hx => h x (List.mem_cons_of_mem d hx))
      have hd := h d (List.mem_cons_self d ds)
      have hs : (3 : ℤ) ^ (d :: ds).length = 3 * 3 ^ ds.length := by
        rw [List.length_cons, pow_succ]; ring
      rw [hs, btHorner]
      rcases hd with hd | hd | hd <;> subst hd <;> constructor <;> omega

/-- Claim C4: for every width N and every integer v in the representable
range [-(3^N - 1)/2, (3^N - 1)/2] of an N-digit balanced-ternary word,
decoding the encoding returns v. -/
theorem balanced_ternary_roundtrip (N : ℕ) (v : ℤ)
    (h1 : -((3 ^ N - 1) / 2) ≤ v) (h2 : v ≤ (3 ^ N - 1) / 2) :
    GenerateTestVectors.balanced_ternary_to_int
      (GenerateTestVectors.int_to_balanced_ternary v N) = v := by
  rw [balanced_ternary_to_int_eq_btHorner]
  have hodd := three_pow_odd N
  have hP := three_pow_pos N
  exact btHorner_encode N v (by omega) (by omega)

/-- Witness for C4: the 8-trit boundary value -3280 = -(3^8 - 1)/2
round-trips. -/
theorem balanced_ternary_roundtrip_witness :
    -((3 ^ 8 - 1) / 2) ≤ (-3280 : ℤ) ∧ (-3280 : ℤ) ≤ (3 ^ 8 - 1) / 2 ∧
    GenerateTestVectors.balanced_ternary_to_int
      (GenerateTestVectors.int_to_balanced_ternary (-3280) 8) = -3280 :=
  ⟨by decide, by decide, balanced_ternary_roundtrip 8 (-3280) (by decide) (by decide)⟩

/-- Counterexample to C5: 2 is not representable in 1 balanced-ternary digit
(the range is [-1, 1]), yet the encoder raises no error: it returns the digit
sequence [-1], which decodes to -1, not 2. -/
theorem encode_out_of_range_no_error :
    ((3 ^ 1 - 1) / 2 : ℤ) < 2 ∧
    GenerateTestVectors.int_to_balanced_ternary 2 1 = [-1] ∧
    GenerateTestVectors.balanced_ternary_to_int
      (GenerateTestVectors.int_to_balanced_ternary 2 1) = -1 := by
  refine ⟨by decide, ?_, by decide⟩
  rw [GenerateTestVectors.int_to_balanced_ternary]
  decide

/-- Claim C5 (amended): `int_to_balanced_ternary` performs no range check and
never fails; for every v outside the representable range it silently returns
a width-N digit sequence that decodes to a different value. -/
theorem encode_out_of_range_truncates (N : ℕ) (v : ℤ)
    (h : v < -((3 ^ N - 1) / 2) ∨ (3 ^ N - 1) / 2 < v) :
    (GenerateTestVectors.int_to_balanced_ternary v N).length = N ∧
    GenerateTestVectors.balanced_ternary_to_int
      (GenerateTestVectors.int_to_balanced_ternary v N) ≠ v := by
  refine ⟨encode_length N v, ?_⟩
  rw [balanced_ternary_to_int_eq_btHorner]
  have hb := btHorner_bound _ (encode_digit_mem N v)
  rw [encode_length] at hb
  have hodd := three_pow_odd N
  have hP := three_pow_pos N
  omega

/-- Witness for C5 (amended): at width 1 the out-of-range value 2 is encoded
as a 1-digit sequence decoding to something else. -/
theorem encode_out_of_range_truncates_witness :
    (GenerateTestVectors.int_to_balanced_ternary 2 1).length = 1 ∧
    GenerateTestVectors.balanced_ternary_to_int
      (GenerateTestVectors.int_to_balanced_ternary 2 1) ≠ 2 :=
  encode_out_of_range_truncates 1 2 (Or.inr (by decide))

namespace TernaryMatmul

/-- Embedding of `ternary_mac(activation, weight, accumulator)` from
tools/tpu/ternary_matmul.py.  Weight 0 is a zero-skip, -1 subtracts, +1 adds,
and any other weight raises `ValueError` (modelled as `none`). -/
def ternary_mac (activation weight accumulator : ℤ) : Option (ℤ × Bool) :=
  if weight = 0 then some (accumulator, true)
  else if weight = -1 then some (accumulator - activation, false)
  else if weight = 1 then some (accumulator + activation, false)
  else none

/-- The inner `for kk in range(k)` loop of `ternary_matmul` for one output
cell: the accumulator starts at 0 and the number of zero-skips is counted. -/
def macAccum (act wgt : ℕ → ℤ) (k : ℕ) : Option (ℤ × ℕ) :=
  (List.range k).foldlM
    (fun p kk =>
      (ternary_mac (act kk) (wgt kk) p.1).map
        (fun r => (r.1, p.2 + if r.2 then 1 else 0)))
    ((0 : ℤ), (0 : ℕ))

/-- Embedding of `ternary_matmul(activations, weights)` from
tools/tpu/ternary_matmul.py on integer matrices.  The matrices are given as
functions together with their dimensions m, k, n (both operands share the
same inner dimension here, so the dimension-mismatch branch cannot fire).
The validation `weights.min() < -1 or weights.max() > 1` is the existence of
an entry outside [-1, 1]; on failure the function raises (none).  The result
is (output, total_macs, zero_skipped); total_macs is incremented once per
inner iteration, i.e. m * n * k in total, and the derived statistics
zero_skip_ratio / effective_ops are quotients of these two counters. -/
def ternary_matmul (activations weights : ℕ → ℕ → ℤ) (m k n : ℕ) :
    Option ((ℕ → ℕ → ℤ) × ℕ × ℕ) :=
  if ∃ j ∈ Finset.range n, ∃ kk ∈ Finset.range k,
      weights j kk < -1 ∨ 1 < weights j kk then none
  else
    some (fun i j =>
        if i < m ∧ j < n then
          ((macAccum (activations i) (weights j) k).map Prod.fst).getD 0
        else 0,
      m * n * k,
      ∑ i in Finset.range m, ∑ j in Finset.range n,
        ((macAccum (activations i) (weights j) k).map Prod.snd).getD 0)

/-- Embedding of `ternary_matmul` applied to float matrices (NumPy arrays of
dtype float), the situation of claim C10: the same Python function, with the
same min/max validation now performed on rationals, and with each entry
truncated by `int(...)` (ratTrunc) before being fed to `ternary_mac`. -/
def ternary_matmulQ (activations weights : ℕ → ℕ → ℚ) (m k n : ℕ) :
    Option ((ℕ → ℕ → ℤ) × ℕ × ℕ) :=
  if ∃ j ∈ Finset.range n, ∃ kk ∈ Finset.range k,
      weights j kk < -1 ∨ 1 < weights j kk then none
  else
    some (fun i j =>
        if i < m ∧ j < n then
          ((macAccum (fun kk => ratTrunc (activations i kk))
              (fun kk => ratTrunc (weights j kk)) k).map Prod.fst).getD 0
        else 0,
      m * n * k,
      ∑ i in Finset.range m, ∑ j in Finset.range n,
        ((macAccum (fun kk => ratTrunc (activations i kk))
            (fun kk => ratTrunc (weights j kk)) k).map Prod.snd).getD 0)

end TernaryMatmul

namespace BenchmarkGolden

/-- Embedding of `ternary_mac(activation, weight, accumulator)` from
tools/tpu/benchmark_golden.py.  This version compares the weight against the
2-bit TritWeight codes (NEG_ONE = 0b00, ZERO = 0b01, POS_ONE = 0b10): weight
1 is skipped, weight 0 subtracts, weight 2 adds, and anything else is
silently treated as a zero-skip; it never raises. -/
def ternary_mac (activation weight accumulator : ℤ) : ℤ × Bool :=
  if weight = 1 then (accumulator, true)
  else if weight = 0 then (accumulator - activation, false)
  else if weight = 2 then (accumulator + activation, false)
  else (accumulator, true)

/-- The inner accumulation loop of `ternary_gemm` for one output cell. -/
def macAccum (act wgt : ℕ → ℤ) (k : ℕ) : ℤ × ℕ :=
  (List.range k).foldl
    (fun p kk =>
      let r := ternary_mac (act kk) (wgt kk) p.1
      (r.1, p.2 + if r.2 then 1 else 0))
    ((0 : ℤ), (0 : ℕ))

/-- Embedding of `ternary_gemm(activations, weights)` from
tools/tpu/benchmark_golden.py: no weight validation (only a shape assert),
`total_macs = m * n * k`, and each cell accumulated through this file's
`ternary_mac`.  Result is (output, total_macs, zero_skipped). -/
def ternary_gemm (activations weights : ℕ → ℕ → ℤ) (m k n : ℕ) :
    (ℕ → ℕ → ℤ) × ℕ × ℕ :=
  (fun i j =>
      if i < m ∧ j < n then (macAccum (activations i) (weights j) k).1 else 0,
    m * n * k,
    ∑ i in Finset.range m, ∑ j in Finset.range n,
      (macAccum (activations i) (weights j) k).2)

end BenchmarkGolden

/-- Claim C1 (code bug): `benchmark_golden.ternary_gemm` documents
`output = activations @ weights^T` for weights in {-1, 0, +1}, but its MAC
compares the weight values against the 2-bit codes, so at activations [[1]],
weights [[1]] it returns 0 (weight +1 matches the ZERO code 0b01 and is
skipped) while `ternary_matmul.ternary_matmul` — and the conventional dot
product — give 1. -/
theorem ternary_gemm_weight_code_divergence :
    (BenchmarkGolden.ternary_gemm (fun _ _ => 1) (fun _ _ => 1) 1 1 1).1 0 0 = 0 ∧
    (TernaryMatmul.ternary_matmul (fun _ _ => 1) (fun _ _ => 1) 1 1 1).map
        (fun r => r.1 0 0) =
      some (∑ kk in Finset.range 1, (1 : ℤ) * 1) ∧
    (TernaryMatmul.ternary_matmul (fun _ _ => 1) (fun _ _ => 1) 1 1 1).map
        (fun r => r.1 0 0) ≠
      some ((BenchmarkGolden.ternary_gemm (fun _ _ => 1) (fun _ _ => 1) 1 1 1).1 0 0) := by
  refine ⟨by decide, by decide, by decide⟩

namespace TernaryMatmul

/-- The staggered activation buffer of one (tile_m, tile_k) chunk of
`ternary_matmul_systolic`: `act_buffer[i, j + i] = activations[tile_m + i,
tile_k + j]` for i below the tile height and j below the chunk width, all
other entries 0. -/
def act_buffer (activations : ℕ → ℕ → ℤ) (tm tk mSize kSize : ℕ) :
    ℕ → ℕ → ℤ :=
  fun i t =>
    if i < mSize ∧ i ≤ t ∧ t - i < kSize then activations (tm + i) (tk + (t - i))
    else 0

/-- The stationary PE weights of one tile_n tile: `pe_weights[i, j] =
weights[tile_n + i, j]` for i below the tile width and j < min(array_size, k),
other entries 0.  Note the source loads column j of the weight matrix itself,
not of the current K-chunk. -/
def pe_weights (weights : ℕ → ℕ → ℤ) (tn nSize R k : ℕ) : ℕ → ℕ → ℤ :=
  fun i j => if i < nSize ∧ j < min R k then weights (tn + i) j else 0

/-- One simulated cycle of the systolic array: every PE (row, col) with
`cycle >= col` and `cycle - col < act_buffer.shape[1] = 3R - 1` reads
`act_buffer[row, cycle - col]` and `pe_weights[col, min(cycle - col, R - 1)]`
and adds / subtracts / skips according to the weight. -/
def systolic_cycle (actBuf pw : ℕ → ℕ → ℤ) (R cycle : ℕ)
    (ps : ℕ → ℕ → ℤ) : ℕ → ℕ → ℤ :=
  fun row col =>
    if row < R ∧ col < R ∧ col ≤ cycle ∧ cycle - col < 3 * R - 1 then
      let a := actBuf row (cycle - col)
      let w := pw col (min (cycle - col) (R - 1))
      if w = 1 then ps row col + a
      else if w = -1 then ps row col - a
      else ps row col
    else ps row col

/-- The cycle loop of one K-chunk: `for cycle in range(num_cycles +
array_size)` with `num_cycles = 2R - 1`, i.e. cycles 0 .. 3R - 2. -/
def systolic_chunk (actBuf pw : ℕ → ℕ → ℤ) (R : ℕ)
    (ps : ℕ → ℕ → ℤ) : ℕ → ℕ → ℤ :=
  (List.range (3 * R - 1)).foldl (fun s c => systolic_cycle actBuf pw R c s) ps

/-- One (tile_m, tile_n) tile of `ternary_matmul_systolic`: the PE partial
sums start at 0, the stationary weights are loaded once, and the K dimension
is processed in chunks `tile_k = 0, R, 2R, ...` (ceil(k/R) of them), each
running the full cycle loop on the same partial-sum grid. -/
def systolic_tile (activations weights : ℕ → ℕ → ℤ) (m k n R tm tn : ℕ) :
    ℕ → ℕ → ℤ :=
  let pw := pe_weights weights tn (min (tn + R) n - tn) R k
  (List.range ((k + R - 1) / R)).foldl
    (fun ps c =>
      let tk := c * R
      systolic_chunk
        (act_buffer activations tm tk (min (tm + R) m - tm) (min (tk + R) k - tk))
        pw R ps)
    (fun _ _ => 0)

/-- Embedding of `ternary_matmul_systolic(activations, weights, array_size)`
from tools/tpu/ternary_matmul.py (the returned output matrix; the per-cycle
snapshot list is not needed for the claims).  Output cell (i, j) is the final
partial sum at position (i mod R, j mod R) of the tile starting at
(R * (i / R), R * (j / R)), which is the unique tile that writes it. -/
def ternary_matmul_systolic (activations weights : ℕ → ℕ → ℤ)
    (m k n R : ℕ) : ℕ → ℕ → ℤ :=
  fun i j =>
    if i < m ∧ j < n then
      systolic_tile activations weights m k n R (R * (i / R)) (R * (j / R))
        (i % R) (j % R)
    else 0

end TernaryMatmul

/-- Claim C2 (code bug): the systolic simulator must converge to the GEMM
result, but at array size 2 with activations [[0,0],[1,0]] and weights
[[1,0]] the PE at the second activation row reads the weight at index
min(cycle - col, R - 1) instead of the stagger-corrected index, so its
converged partial sum is 0 while `ternary_matmul` gives 1. -/
theorem systolic_gemm_divergence :
    TernaryMatmul.ternary_matmul_systolic
        (matOfLists [[0, 0], [1, 0]]) (matOfLists [[1, 0]]) 2 2 1 2 1 0 = 0 ∧
    (TernaryMatmul.ternary_matmul
          (matOfLists [[0, 0], [1, 0]]) (matOfLists [[1, 0]]) 2 2 1).map
        (fun r => r.1 1 0) = some 1 ∧
    (0 : ℤ) ≠ 1 :=
  ⟨by decide, by decide, by decide⟩

/-- Counterexample to C3: `benchmark_golden.ternary_mac` neither returns
(acc + a, false) for weight +1 (it zero-skips it, since +1 equals the 2-bit
ZERO code) nor fails for the out-of-domain weight 5 (it silently zero-skips
it as well). -/
theorem bench_mac_silent_skip :
    BenchmarkGolden.ternary_mac 10 1 0 = (0, true) ∧
    BenchmarkGolden.ternary_mac 10 5 0 = (0, true) :=
  ⟨by decide, by decide⟩

/-- Claim C3 (amended): `ternary_matmul.ternary_mac` behaves exactly as
claimed — (acc, true) for weight 0, (acc + a, false) for +1, (acc - a, false)
for -1, an error for every other weight — and chaining it over activations
[10, 20, -15, 0, 50] with weights [+1, -1, +1, 0, -1] from accumulator 0
yields -75 with exactly 1 of the 5 MACs skipped; `benchmark_golden.ternary_mac`
however interprets weights as 2-bit codes (1 skips, 0 subtracts, 2 adds) and
silently zero-skips every other weight instead of failing. -/
theorem ternary_mac_spec (a acc : ℤ) :
    TernaryMatmul.ternary_mac a 0 acc = some (acc, true) ∧
    TernaryMatmul.ternary_mac a 1 acc = some (acc + a, false) ∧
    TernaryMatmul.ternary_mac a (-1) acc = some (acc - a, false) ∧
    (∀ w : ℤ, w ≠ -1 → w ≠ 0 → w ≠ 1 →
      TernaryMatmul.ternary_mac a w acc = none) ∧
    TernaryMatmul.macAccum (matOfLists [[10, 20, -15, 0, 50]] 0)
      (matOfLists [[1, -1, 1, 0, -1]] 0) 5 = some (-75, 1) ∧
    (∀ w : ℤ, w ≠ 0 → w ≠ 1 → w ≠ 2 →
      BenchmarkGolden.ternary_mac a w acc = (acc, true)) := by
  refine ⟨by simp [TernaryMatmul.ternary_mac], ?_, ?_, ?_, by decide, ?_⟩
  · rw [TernaryMatmul.ternary_mac,
      if_neg (show (1 : ℤ) ≠ 0 by decide),
      if_neg (show (1 : ℤ) ≠ -1 by decide), if_pos rfl]
  · rw [TernaryMatmul.ternary_mac,
      if_neg (show (-1 : ℤ) ≠ 0 by decide), if_pos rfl]
  · intro w h1 h2 h3
    rw [TernaryMatmul.ternary_mac, if_neg h2, if_neg h1, if_neg h3]
  · intro w h0 h1 h2
    rw [BenchmarkGolden.ternary_mac, if_neg h1, if_neg h0, if_neg h2]

/-- Witness for C3 (amended): concrete instances of the MAC contract,
including the error on weight 5 and the silent skip of the benchmark MAC on
weight -1. -/
theorem ternary_mac_spec_witness :
    TernaryMatmul.ternary_mac 10 5 0 = none ∧
    BenchmarkGolden.ternary_mac 10 (-1) 0 = (0, true) ∧
    TernaryMatmul.ternary_mac 10 1 0 = some (0 + 10, false) :=
  ⟨(ternary_mac_spec 10 0).2.2.2.1 5 (by decide) (by decide) (by decide),
   (ternary_mac_spec 10 0).2.2.2.2.2 (-1) (by decide) (by decide) (by decide),
   (ternary_mac_spec 10 0).2.1⟩

namespace BenchmarkGolden

/-- Embedding of `reduce_sum(data)` from tools/tpu/benchmark_golden.py:
`np.sum(data, dtype=np.int64)` (int64 accumulation, i.e. the mathematical sum
wrapped into the signed 64-bit range) followed by saturation to the signed
32-bit range. -/
def reduce_sum (data : List ℤ) : ℤ :=
  max (-2 ^ 31) (min (2 ^ 31 - 1) (wrap64 data.sum))

/-- Embedding of `reduce_max(data)`: `np.max` of a nonempty array, an error
(none) on an empty one. -/
def reduce_max : List ℤ → Option ℤ
  | [] => none
  | x :: xs => some (xs.foldl max x)

/-- Embedding of `reduce_min(data)`. -/
def reduce_min : List ℤ → Option ℤ
  | [] => none
  | x :: xs => some (xs.foldl min x)

/-- Embedding of `reduce_abssum(data)`: `np.sum(np.abs(data),
dtype=np.int64)` — int64 elementwise absolute value, then int64 sum — then
saturation to the signed 32-bit range. -/
def reduce_abssum (data : List ℤ) : ℤ :=
  max (-2 ^ 31) (min (2 ^ 31 - 1) (wrap64 (data.map (fun x => wrap64 |x|)).sum))

end BenchmarkGolden

lemma wrap64_eq (x : ℤ) (h1 : -2 ^ 63 ≤ x) (h2 : x < 2 ^ 63) : wrap64 x = x := by
  rw [wrap64]; omega

lemma foldl_max_mem (xs : List ℤ) : ∀ x : ℤ, xs.foldl max x ∈ x :: xs := by
  induction xs with
  | nil => intro x; simp
  | cons a as ih =>
      intro x
      rw [List.foldl_cons]
      rcases List.mem_cons.mp (ih (max x a)) with h1 | h1
      · rw [h1]
        rcases max_choice x a with hm | hm <;> rw [hm] <;> simp
      · simp [List.mem_cons_of_mem, h1]

lemma foldl_min_mem (xs : List ℤ) : ∀ x : ℤ, xs.foldl min x ∈ x :: xs := by
  induction xs with
  | nil => intro x; simp
  | cons a as ih =>
      intro x
      rw [List.foldl_cons]
      rcases List.mem_cons.mp (ih (min x a)) with h1 | h1
      · rw [h1]
        rcases min_choice x a with hm | hm <;> rw [hm] <;> simp
      · simp [List.mem_cons_of_mem, h1]

/-- Counterexample to C8: on [2^62, 2^62, 2^62, 2^62] the int64 accumulation
of `reduce_sum` wraps to 0 before the 32-bit clamp, so the result is 0 and
not the saturated value 2^31 - 1 of the true sum 2^64. -/
theorem reduce_sum_int64_wrap :
    BenchmarkGolden.reduce_sum [2 ^ 62, 2 ^ 62, 2 ^ 62, 2 ^ 62] = 0 ∧
    max (-2 ^ 31) (min (2 ^ 31 - 1)
      ([2 ^ 62, 2 ^ 62, 2 ^ 62, 2 ^ 62] : List ℤ).sum) = 2 ^ 31 - 1 ∧
    (0 : ℤ) ≠ 2 ^ 31 - 1 :=
  ⟨by decide, by decide, by decide⟩

/-- Claim C8 (amended): `reduce_sum` / `reduce_abssum` saturate the (int64)
accumulated value to [-2^31, 2^31 - 1] — equal to the saturated true sum
whenever the int64 accumulation itself does not overflow — with the concrete
instance reduce([2^31, 2^31], sum) = 2^31 - 1, while `reduce_max` /
`reduce_min` always return an element of their (nonempty) input and never
saturate. -/
theorem reduce_spec (data : List ℤ) :
    (-2 ^ 63 ≤ data.sum → data.sum < 2 ^ 63 →
      BenchmarkGolden.reduce_sum data =
        max (-2 ^ 31) (min (2 ^ 31 - 1) data.sum)) ∧
    ((∀ x ∈ data, -2 ^ 63 < x ∧ x < 2 ^ 63) →
      (data.map (fun x => |x|)).sum < 2 ^ 63 →
      BenchmarkGolden.reduce_abssum data =
        max (-2 ^ 31) (min (2 ^ 31 - 1) (data.map (fun x => |x|)).sum)) ∧
    BenchmarkGolden.reduce_sum [2 ^ 31, 2 ^ 31] = 2 ^ 31 - 1 ∧
    (∀ (x : ℤ) (xs : List ℤ),
      ∃ mx, BenchmarkGolden.reduce_max (x :: xs) = some mx ∧ mx ∈ x :: xs) ∧
    (∀ (x : ℤ) (xs : List ℤ),
      ∃ mn, BenchmarkGolden.reduce_min (x :: xs) = some mn ∧ mn ∈ x :: xs) := by
  refine ⟨?_, ?_, by decide, ?_, ?_⟩
  · intro h1 h2
    rw [BenchmarkGolden.reduce_sum, wrap64_eq _ h1 h2]
  · intro hx hsum
    have hmap : data.map (fun x => wrap64 |x|) = data.map (fun x => |x|) :=
      List.map_congr_left (fun x hxm =>
        wrap64_eq _ (le_trans (by norm_num) (abs_nonneg x))
          (abs_lt.mpr ⟨(hx x hxm).1, (hx x hxm).2⟩))
    have hnn : (0 : ℤ) ≤ (data.map (fun x => |x|)).sum :=
      List.sum_nonneg (by
        intro y hy
        obtain ⟨x, _, hxy⟩ := List.mem_map.mp hy
        exact hxy ▸ abs_nonneg x)
    rw [BenchmarkGolden.reduce_abssum, hmap,
      wrap64_eq _ (le_trans (by norm_num) hnn) hsum]
  · intro x xs
    exact ⟨xs.foldl max x, rfl, foldl_max_mem xs x⟩
  · intro x xs
    exact ⟨xs.foldl min x, rfl, foldl_min_mem xs x⟩

/-- Witness for C8 (amended): the saturation characterisation evaluated on
[2^31, 2^31] and the abssum characterisation on [-5, 3]. -/
theorem reduce_spec_witness :
    BenchmarkGolden.reduce_sum [2 ^ 31, 2 ^ 31] =
      max (-2 ^ 31) (min (2 ^ 31 - 1) ([2 ^ 31, 2 ^ 31] : List ℤ).sum) ∧
    BenchmarkGolden.reduce_abssum [-5, 3] =
      max (-2 ^ 31) (min (2 ^ 31 - 1) (([-5, 3] : List ℤ).map (fun x => |x|)).sum) :=
  ⟨(reduce_spec [2 ^ 31, 2 ^ 31]).1 (by decide) (by decide),
   (reduce_spec [-5, 3]).2.1 (by decide) (by decide)⟩

namespace BenchmarkGolden

/-- Embedding of `sigmoid_lut(x, q_in, q_out)` from
tools/tpu/benchmark_golden.py.  The float arithmetic is modelled exactly over
ℚ; `sig` abstracts the float evaluation of `1/(1 + exp(-t))`, which is only
consulted when the scaled input exceeds -20 (integer inputs scale to exact
dyadic rationals, so the comparison is exact in float as well). -/
def sigmoid_lut (sig : ℚ → ℚ) (q_in q_out : ℕ) (x : ℤ) : ℤ :=
  let x_float : ℚ := (x : ℚ) / 2 ^ q_in
  let y_float : ℚ := if x_float > -20 then sig x_float else 0
  ratTrunc (y_float * 2 ^ q_out)

/-- Embedding of `exp_lut(x, q_in, q_out)`: the scaled input is clamped to
[-10, 10], the abstracted float `exp` evaluation `e` is applied to the
clamped value, the output is clamped to 32767, and the result is rescaled by
`1 << (q_out - 15)` and truncated. -/
def exp_lut (e : ℚ → ℚ) (q_in q_out : ℕ) (x : ℤ) : ℤ :=
  let x_float : ℚ := max (-10) (min 10 ((x : ℚ) / 2 ^ q_in))
  let y_float : ℚ := e x_float
  ratTrunc (min y_float 32767 * 2 ^ (q_out - 15))

/-- Embedding of `log_lut(x, q_in, q_out)`: inputs whose scaled value is
non-positive return the sentinel -32768 without consulting the abstracted
float `log` evaluation `lg`. -/
def log_lut (lg : ℚ → ℚ) (q_in q_out : ℕ) (x : ℤ) : ℤ :=
  let x_float : ℚ := (x : ℚ) / 2 ^ q_in
  if x_float ≤ 0 then -32768
  else ratTrunc (lg x_float * 2 ^ q_out)

/-- Embedding of `rsqrt_newton(x, q_format, iterations)`: non-positive inputs
return the sentinel 0x7FFF = 32767; positive inputs scale to a rational,
take the abstracted float initial estimate `isq` of `1/sqrt` (the `1e10`
fallback is kept although it is dead for positive inputs), run exactly
`iterations` Newton-Raphson steps y ← y * (1.5 - (0.5 * x_float) * y * y) in
exact rational arithmetic, rescale, clamp to 0x7FFF and truncate. -/
def rsqrt_newton (isq : ℚ → ℚ) (q_format iterations : ℕ) (x : ℤ) : ℤ :=
  if x ≤ 0 then 32767
  else
    let x_float : ℚ := (x : ℚ) / 2 ^ q_format
    let y0 : ℚ := if x_float > 0 then isq x_float else 10 ^ 10
    let half_x : ℚ := 1 / 2 * x_float
    let y : ℚ := (fun yy => yy * (3 / 2 - half_x * yy * yy))^[iterations] y0
    ratTrunc (min (y * 2 ^ q_format) 32767)

end BenchmarkGolden

lemma ratTrunc_le_intCast (q : ℚ) (z : ℤ) (h : q ≤ (z : ℚ)) : ratTrunc q ≤ z := by
  rw [ratTrunc]
  split_ifs
  · exact Int.ceil_le.mpr h
  · exact le_trans (Int.floor_le_floor h) (le_of_eq (Int.floor_intCast z))

/-- Claim C6: at the default configuration (8 input, 15 output fractional
bits) — and for every abstracted transcendental evaluator — sigmoid returns
0 whenever the scaled input is below -20; exp applies its evaluator only to
the input clamped into [-10, 10] and clamps the evaluated output to 32767
before the final rescale, so its result never exceeds 32767; and log returns
the sentinel -32768 for every input with non-positive scaled value (it is a
total function: no error path exists). -/
theorem nonlinear_edge_policies (sig e lg : ℚ → ℚ) (x : ℤ) :
    ((x : ℚ) / 2 ^ 8 < -20 → BenchmarkGolden.sigmoid_lut sig 8 15 x = 0) ∧
    BenchmarkGolden.exp_lut e 8 15 x =
      ratTrunc (min (e (max (-10) (min 10 ((x : ℚ) / 2 ^ 8)))) 32767) ∧
    (-10 : ℚ) ≤ max (-10) (min 10 ((x : ℚ) / 2 ^ 8)) ∧
    max (-10) (min 10 ((x : ℚ) / 2 ^ 8)) ≤ 10 ∧
    BenchmarkGolden.exp_lut e 8 15 x ≤ 32767 ∧
    ((x : ℚ) / 2 ^ 8 ≤ 0 → BenchmarkGolden.log_lut lg 8 15 x = -32768) := by
  have heq : BenchmarkGolden.exp_lut e 8 15 x =
      ratTrunc (min (e (max (-10) (min 10 ((x : ℚ) / 2 ^ 8)))) 32767) := by
    rw [BenchmarkGolden.exp_lut]
    norm_num
  refine ⟨?_, heq, le_max_left _ _, ?_, ?_, ?_⟩
  · intro h
    rw [BenchmarkGolden.sigmoid_lut]
    simp only [if_neg (show ¬(x : ℚ) / 2 ^ 8 > -20 by linarith)]
    norm_num [ratTrunc]
  · exact max_le (by norm_num) (min_le_left _ _)
  · rw [heq]
    refine ratTrunc_le_intCast _ _ ?_
    push_cast
    exact min_le_right _ _
  · intro h
    rw [BenchmarkGolden.log_lut]
    simp only [if_pos h]

/-- Witness for C6: the sigmoid edge at x = -5121 (scaled value just below
-20) and the log sentinel at x = -1, with constant evaluators. -/
theorem nonlinear_edge_policies_witness :
    BenchmarkGolden.sigmoid_lut (fun _ => 0) 8 15 (-5121) = 0 ∧
    BenchmarkGolden.log_lut (fun _ => 0) 8 15 (-1) = -32768 :=
  ⟨(nonlinear_edge_policies (fun _ => 0) (fun _ => 0) (fun _ => 0) (-5121)).1
      (by norm_num),
   (nonlinear_edge_policies (fun _ => 0) (fun _ => 0) (fun _ => 0) (-1)).2.2.2.2.2
      (by norm_num)⟩

/-- Claim C7: `rsqrt_newton` at the default configuration (q_format 16,
iterations 2) returns the sentinel 0x7FFF = 32767 for every x ≤ 0 without an
error; for every x > 0 it applies exactly 2 Newton-Raphson refinements
y ← y * (1.5 - 0.5 * x_float * y * y) to the initial estimate isq(x_float)
of 1/sqrt(x_float) and converts back to the fixed-point scale clamped at
32767; and its result never exceeds 32767. -/
theorem rsqrt_spec (isq : ℚ → ℚ) (x : ℤ) :
    (x ≤ 0 → BenchmarkGolden.rsqrt_newton isq 16 2 x = 32767) ∧
    (0 < x → BenchmarkGolden.rsqrt_newton isq 16 2 x =
      ratTrunc (min
        ((fun yy => yy * (3 / 2 - 1 / 2 * ((x : ℚ) / 2 ^ 16) * yy * yy))^[2]
          (isq ((x : ℚ) / 2 ^ 16)) * 2 ^ 16) 32767)) ∧
    BenchmarkGolden.rsqrt_newton isq 16 2 x ≤ 32767 := by
  have h1 : x ≤ 0 → BenchmarkGolden.rsqrt_newton isq 16 2 x = 32767 := by
    intro h
    rw [BenchmarkGolden.rsqrt_newton, if_pos h]
  have h2 : 0 < x → BenchmarkGolden.rsqrt_newton isq 16 2 x =
      ratTrunc (min
        ((fun yy => yy * (3 / 2 - 1 / 2 * ((x : ℚ) / 2 ^ 16) * yy * yy))^[2]
          (isq ((x : ℚ) / 2 ^ 16)) * 2 ^ 16) 32767) := by
    intro h
    have hx : (0 : ℚ) < (x : ℚ) / 2 ^ 16 :=
      div_pos (by exact_mod_cast h) (by positivity)
    rw [BenchmarkGolden.rsqrt_newton, if_neg (by omega : ¬x ≤ 0)]
    simp only [if_pos hx]
  refine ⟨h1, h2, ?_⟩
  by_cases h : x ≤ 0
  · rw [h1 h]
  · rw [h2 (by omega)]
    refine ratTrunc_le_intCast _ _ ?_
    push_cast
    exact min_le_right _ _

/-- Witness for C7: the sentinel at x = -3 and the Newton-Raphson
characterisation at x = 1 with the constant initial estimate 1. -/
theorem rsqrt_spec_witness :
    BenchmarkGolden.rsqrt_newton (fun _ => 1) 16 2 (-3) = 32767 ∧
    BenchmarkGolden.rsqrt_newton (fun _ => 1) 16 2 1 =
      ratTrunc (min
        ((fun yy => yy * (3 / 2 - 1 / 2 * (((1 : ℤ) : ℚ) / 2 ^ 16) * yy * yy))^[2]
          1 * 2 ^ 16) 32767) :=
  ⟨(rsqrt_spec (fun _ => 1) (-3)).1 (by decide),
   (rsqrt_spec (fun _ => 1) 1).2.1 (by decide)⟩

namespace TnnLayerModel

/-- The number of output positions along one spatial dimension of `im2col`
from tools/tpu/tnn_layer_model.py: `(d + 2 * padding - kernel) // stride + 1`
(ℕ subtraction; the Python value is the same whenever d + 2p ≥ k, which
holds for every configuration considered here). -/
def outDim (d k s p : ℕ) : ℕ :=
  (d + 2 * p - k) / s + 1

/-- The zero padded input tensor built by `np.pad` inside `im2col`: position
(ch, yy, xxp) of the padded array holds input (ch, yy - p, xxp - p) when that
is inside the original spatial extent and 0 otherwise. -/
def padTensor (x : ℕ → ℕ → ℕ → ℤ) (h w p : ℕ) : ℕ → ℕ → ℕ → ℤ :=
  fun ch yy xxp =>
    if p ≤ yy ∧ yy < h + p ∧ p ≤ xxp ∧ xxp < w + p then x ch (yy - p) (xxp - p)
    else 0

/-- Embedding of `im2col(input_data, kernel_size, stride, padding)` from
tools/tpu/tnn_layer_model.py.  Column index ci enumerates the output
positions in row-major order (output row outer, output column inner); row
index r is the flattened patch offset in channel-major, then patch-row, then
patch-column order (`patch.flatten()`); the entry is the padded tensor at
channel r / k², padded row s * (ci / OW) + (r % k²) / k and padded column
s * (ci % OW) + r % k. -/
def im2col (x : ℕ → ℕ → ℕ → ℤ) (c h w k s p : ℕ) : ℕ → ℕ → ℤ :=
  fun r ci =>
    padTensor x h w p (r / (k * k))
      (s * (ci / outDim w k s p) + (r % (k * k)) / k)
      (s * (ci % outDim w k s p) + r % k)

/-- Embedding of `col2im(col, output_channels, output_height, output_width)`
from tools/tpu/tnn_layer_model.py: a pure `np.reshape` of the column matrix
to shape (oc, oh, ow).  Since the embedded matrices carry no shape, the
column count of `col` (`col.shape[1]`) is passed explicitly as `colCols`;
reshape reads the row-major flattened data back in row-major order. -/
def col2im (col : ℕ → ℕ → ℤ) (oc oh ow colCols : ℕ) : ℕ → ℕ → ℕ → ℤ :=
  fun ch y xx =>
    col ((ch * (oh * ow) + y * ow + xx) / colCols)
      ((ch * (oh * ow) + y * ow + xx) % colCols)

end TnnLayerModel

/-- Counterexample to C9: a shape-matching configuration that is not a pure
reshape.  For the (1, 4, 2) tensor [[[1,2],[3,4],[5,6],[7,8]]] with kernel 2,
stride 2, padding 0, `im2col` has shape (4, 2) — 8 entries, matching the
original 8 — but `col2im` back to (1, 4, 2) permutes the entries: position
(0, 0, 1) holds 5 instead of the original 2. -/
theorem im2col_col2im_not_inverse :
    TnnLayerModel.col2im
        (TnnLayerModel.im2col (tensorOfLists [[[1, 2], [3, 4], [5, 6], [7, 8]]])
          1 4 2 2 2 0)
        1 4 2
        (TnnLayerModel.outDim 4 2 2 0 * TnnLayerModel.outDim 2 2 2 0) 0 0 1 = 5 ∧
    tensorOfLists [[[1, 2], [3, 4], [5, 6], [7, 8]]] 0 0 1 = 2 ∧
    (5 : ℤ) ≠ 2 :=
  ⟨by decide, by decide, by decide⟩

/-- Claim C9 (amended): when `im2col` is a pure reshape — kernel 1, stride 1,
padding 0, the only configuration in which a shape-matching `col2im` back to
the input shape can be the inverse — `col2im` of `im2col` reproduces the
original tensor at every in-range position. -/
theorem im2col_col2im_roundtrip (x : ℕ → ℕ → ℕ → ℤ) (c h w ch y xx : ℕ)
    (hc : ch < c) (hy : y < h) (hx : xx < w) :
    TnnLayerModel.col2im (TnnLayerModel.im2col x c h w 1 1 0) c h w
      (TnnLayerModel.outDim h 1 1 0 * TnnLayerModel.outDim w 1 1 0) ch y xx =
    x ch y xx := by
  have hwpos : 0 < w := by omega
  have hhpos : 0 < h := by omega
  have how : TnnLayerModel.outDim w 1 1 0 = w := by
    rw [TnnLayerModel.outDim]; omega
  have hoh : TnnLayerModel.outDim h 1 1 0 = h := by
    rw [TnnLayerModel.outDim]; omega
  have hflat : y * w + xx < h * w := by
    calc y * w + xx < y * w + w := by omega
    _ = (y + 1) * w := by ring
    _ ≤ h * w := Nat.mul_le_mul_right w hy
  have hhw : 0 < h * w := Nat.mul_pos hhpos hwpos
  rw [TnnLayerModel.col2im, hoh, how]
  have hdiv : (ch * (h * w) + y * w + xx) / (h * w) = ch := by
    rw [Nat.add_assoc, Nat.add_comm (ch * (h * w)) (y * w + xx),
      Nat.mul_comm ch (h * w), Nat.add_mul_div_left _ _ hhw,
      Nat.div_eq_of_lt hflat, Nat.zero_add]
  have hmod : (ch * (h * w) + y * w + xx) % (h * w) = y * w + xx := by
    rw [Nat.add_assoc, Nat.add_comm (ch * (h * w)) (y * w + xx),
      Nat.mul_comm ch (h * w), Nat.add_mul_mod_self_left,
      Nat.mod_eq_of_lt hflat]
  rw [hdiv, hmod, TnnLayerModel.im2col, how]
  have hdiv2 : (y * w + xx) / w = y := by
    rw [Nat.add_comm (y * w) xx, Nat.mul_comm y w, Nat.add_mul_div_left _ _ hwpos,
      Nat.div_eq_of_lt hx, Nat.zero_add]
  have hmod2 : (y * w + xx) % w = xx := by
    rw [Nat.add_comm (y * w) xx, Nat.mul_comm y w, Nat.add_mul_mod_self_left,
      Nat.mod_eq_of_lt hx]
  rw [hdiv2, hmod2]
  simp [TnnLayerModel.padTensor, Nat.mod_one, hy, hx]

/-- Witness for C9 (amended): the kernel-1 stride-1 padding-0 round trip on
the (1, 2, 2) tensor [[[1, 2], [3, 4]]] at position (0, 1, 0). -/
theorem im2col_col2im_roundtrip_witness :
    TnnLayerModel.col2im
      (TnnLayerModel.im2col (tensorOfLists [[[1, 2], [3, 4]]]) 1 2 2 1 1 0)
      1 2 2 (TnnLayerModel.outDim 2 1 1 0 * TnnLayerModel.outDim 2 1 1 0) 0 1 0 =
    tensorOfLists [[[1, 2], [3, 4]]] 0 1 0 :=
  im2col_col2im_roundtrip (tensorOfLists [[[1, 2], [3, 4]]]) 1 2 2 0 1 0
    (by decide) (by decide) (by decide)

/-- Claim C10: `ternary_matmul` applied to the weight matrix [[1/2]] — all
entries inside [-1, 1] but non-integer — raises no invalid-weight error,
because the validation only compares the minimum and maximum against -1 and
1; the entry is truncated by int() to 0 and counted as a zero-skip, so with
activations [[3]] the output cell is 0 and zero_skipped is 1, silently
differing from the exact product 3 * (1/2). -/
theorem ternary_matmul_truncates_fractional_weights :
    (TernaryMatmul.ternary_matmulQ (fun _ _ => 3) (fun _ _ => 1 / 2) 1 1 1).map
        (fun r => (r.1 0 0, r.2.2)) = some (0, 1) ∧
    ratTrunc (1 / 2) = 0 ∧
    (1 / 2 : ℚ) ≠ ((ratTrunc (1 / 2) : ℤ) : ℚ) ∧
    (3 : ℚ) * (1 / 2) ≠ ((0 : ℤ) : ℚ) := by
  have hhalf : ratTrunc (1 / 2) = 0 := by
    rw [ratTrunc, if_neg (by norm_num : ¬(1 / 2 : ℚ) < 0), Int.floor_eq_iff]
    norm_num
  have hhalf2 : ratTrunc (2⁻¹ : ℚ) = 0 := by rw [← one_div]; exact hhalf
  refine ⟨?_, hhalf, by rw [hhalf]; norm_num, by norm_num⟩
  rw [TernaryMatmul.ternary_matmulQ, if_neg (by norm_num)]
  have hr1 : List.range 1 = [0] := rfl
  simp [TernaryMatmul.macAccum, TernaryMatmul.ternary_mac, hhalf, hhalf2,
    hr1, List.foldlM_cons, List.foldlM_nil]

lemma macAccum_ternary (act wgt : ℕ → ℤ) : ∀ k : ℕ,
    (∀ kk, kk < k → wgt kk = -1 ∨ wgt kk = 0 ∨ wgt kk = 1) →
    TernaryMatmul.macAccum act wgt k =
      some (∑ kk in Finset.range k, act kk * wgt kk,
        ((Finset.range k).filter (fun kk => wgt kk = 0)).card) := by
  intro k
  induction k with
  | zero => intro _; rfl
  | succ k ih =>
      intro h
      have hk := h k (by omega)
      have hih := ih (fun kk hkk => h kk (by omega))
      rw [TernaryMatmul.macAccum] at hih ⊢
      rw [List.range_succ, List.foldlM_append, hih]
      have hknot : k ∉ Finset.range k := by simp
      rcases hk with hw | hw | hw <;>
        simp [TernaryMatmul.ternary_mac, hw, Finset.sum_range_succ,
          Finset.range_succ, Finset.filter_insert,
          Finset.card_insert_of_not_mem, hknot] <;>
        omega

/-- Correctness of the primary GEMM engine `ternary_matmul.ternary_matmul`
(the content of claim C1 on the implementation that satisfies it, and of the
zero-skip accounting property of the spec): for every weight matrix with
entries in {-1, 0, +1} it succeeds, every output cell is the conventional
dot product of the activation row with the weight row, total_macs is
m * n * k, and zero_skipped counts exactly the zero weight positions summed
over all (i, j) cells. -/
theorem ternary_matmul_gemm_correct (A W : ℕ → ℕ → ℤ) (m k n : ℕ)
    (hW : ∀ j, j < n → ∀ kk, kk < k → W j kk = -1 ∨ W j kk = 0 ∨ W j kk = 1) :
    ∃ r, TernaryMatmul.ternary_matmul A W m k n = some r ∧
      (∀ i, i < m → ∀ j, j < n →
        r.1 i j = ∑ kk in Finset.range k, A i kk * W j kk) ∧
      r.2.1 = m * n * k ∧
      r.2.2 = ∑ i in Finset.range m, ∑ j in Finset.range n,
        ((Finset.range k).filter (fun kk => W j kk = 0)).card := by
  have hcond : ¬∃ j ∈ Finset.range n, ∃ kk ∈ Finset.range k,
      W j kk < -1 ∨ 1 < W j kk := by
    rintro ⟨j, hj, kk, hkk, hbad⟩
    rcases hW j (Finset.mem_range.mp hj) kk (Finset.mem_range.mp hkk) with
      h | h | h <;> omega
  rw [TernaryMatmul.ternary_matmul, if_neg hcond]
  refine ⟨_, rfl, ?_, rfl, ?_⟩
  · intro i hi j hj
    simp only [if_pos (And.intro hi hj)]
    rw [macAccum_ternary (A i) (W j) k (hW j hj)]
    rfl
  · dsimp only
    refine Finset.sum_congr rfl
      (fun i _ => Finset.sum_congr rfl (fun j hj => ?_))
    rw [macAccum_ternary (A i) (W j) k (hW j (Finset.mem_range.mp hj))]
    rfl
